import Mathlib

/-!
Verification of the subtitle-OCR text accumulator.

Shallow embedding of the repository's original logic:

* `src/text_processor.py` — class `TextProcessor`: deduplicating text
  accumulator with similarity based on Python's
  `difflib.SequenceMatcher(None, a, b).ratio()`, plus export to "txt"
  and "srt" formats.
* `src/capture.py` — class `ScreenCapture`: region capture returning
  `None` when no region is set.
* `src/ui/main_window.py` — `MainWindow._on_capture_tick`: the periodic
  capture → OCR → accumulate step.

Strings are modelled as `List Char`; Python `float` similarity values are
modelled as `ℚ` (every value `2*M/T` produced by `ratio` as well as the
configured thresholds are exactly representable and their comparisons
agree with the double-precision ones for all realistic string lengths);
timestamps are modelled as seconds (`Nat`), which is exact for the
`%H:%M:%S`-level formatting the code performs.
-/

/-! ## difflib.SequenceMatcher, specialised to `isjunk = None`, as used by
`TextProcessor._is_duplicate` and `TextProcessor.get_similarity`.

The Python code constructs `SequenceMatcher(None, a, b)` and calls
`.ratio()`.  With `isjunk = None` the junk set `bjunk` is empty, but the
default `autojunk = True` heuristic still applies: for `len(b) >= 200`,
elements occurring more than `len(b) // 100 + 1` times are dropped from
the index `b2j` ("popular" elements). -/

/-- Models Python `str.lower()` character-wise.  `Char.toLower` performs
the ASCII case mapping; every character the claims exercise is ASCII. -/
def pyLower (s : List Char) : List Char := s.map Char.toLower

/-- Ascending list of the indices of `c` in `b` (difflib's `b2j[c]`
before the autojunk filtering). -/
def indicesIn (b : List Char) (c : Char) : List Nat :=
  (List.range b.length).filter (fun j => b.get? j = some c)

/-- difflib's autojunk heuristic: with `len(b) >= 200`, an element whose
occurrence count exceeds `len(b) // 100 + 1` is "popular". -/
def isPopular (b : List Char) (c : Char) : Prop :=
  200 ≤ b.length ∧ b.length / 100 + 1 < b.count c

instance (b : List Char) (c : Char) : Decidable (isPopular b c) :=
  inferInstanceAs (Decidable (200 ≤ b.length ∧ b.length / 100 + 1 < b.count c))

/-- difflib's `b2j` including autojunk: popular elements are deleted. -/
def b2j (b : List Char) (c : Char) : List Nat :=
  if isPopular b c then [] else indicesIn b c

/-- A matching block candidate `(i, j, size)` as difflib manipulates it
inside `find_longest_match`. -/
structure BestBlock where
  i : Nat
  j : Nat
  size : Nat
deriving Repr, DecidableEq

/-- One iteration of the inner `for j in b2j.get(a[i], [])` loop of
`find_longest_match`.  `j2len` is the row computed for `i - 1`; entries
with `j < blo` are skipped (`continue`) and entries with `j ≥ bhi` are
skipped as well (difflib `break`s, but the index lists are ascending so
the effect on the final state is the same).  `k = j2len.get(j-1, 0) + 1`,
with `j = 0` reading the default `0`. -/
def innerStep (j2len : Nat → Nat) (blo bhi i : Nat)
    (st : (Nat → Nat) × BestBlock) (j : Nat) : (Nat → Nat) × BestBlock :=
  if blo ≤ j ∧ j < bhi then
    let k := (if j = 0 then 0 else j2len (j - 1)) + 1
    let nj := fun x => if x = j then k else st.1 x
    if st.2.size < k then (nj, ⟨i + 1 - k, j + 1 - k, k⟩) else (nj, st.2)
  else st

/-- One row `i` of the main loop of `find_longest_match`: scan
`b2j.get(a[i], [])` starting from a fresh `newj2len`, threading the best
block; the previous row `st.1` supplies the `j2len.get(j-1, 0)` reads. -/
def procRow (a b : List Char) (blo bhi : Nat)
    (st : (Nat → Nat) × BestBlock) (i : Nat) : (Nat → Nat) × BestBlock :=
  (b2j b (a.getD i ' ')).foldl (innerStep st.1 blo bhi i) ((fun _ => 0), st.2)

/-- The `for i in range(alo, ahi)` loop of `find_longest_match`. -/
def mainLoop (a b : List Char) (alo ahi blo bhi : Nat) : BestBlock :=
  ((List.range' alo (ahi - alo)).foldl (procRow a b blo bhi)
    ((fun _ => 0), ⟨alo, blo, 0⟩)).2

/-- The first post-loop extension of `find_longest_match`:
`while besti > alo and bestj > blo and a[besti-1] == b[bestj-1]`.
(The `not isbjunk(...)` conjunct is omitted: with `isjunk = None` the
junk set `bjunk` is empty, so it is always true; autojunk's "popular"
elements are not members of `bjunk`.) -/
def extendL (a b : List Char) (alo blo : Nat) : Nat → Nat → Nat → BestBlock
  | 0, bj, bs => ⟨0, bj, bs⟩
  | bi + 1, bj, bs =>
    if alo < bi + 1 ∧ blo < bj ∧ a.get? bi = b.get? (bj - 1) then
      extendL a b alo blo bi (bj - 1) (bs + 1)
    else ⟨bi + 1, bj, bs⟩

/-- The second post-loop extension of `find_longest_match`:
`while besti+bestsize < ahi and bestj+bestsize < bhi and
a[besti+bestsize] == b[bestj+bestsize]` (again with the empty-junk
conjunct dropped). -/
def extendRGo (a b : List Char) (ahi bhi bi bj : Nat) : Nat → Nat → BestBlock
  | 0, bs => ⟨bi, bj, bs⟩
  | fuel + 1, bs =>
    if bi + bs < ahi ∧ bj + bs < bhi ∧ a.get? (bi + bs) = b.get? (bj + bs) then
      extendRGo a b ahi bhi bi bj fuel (bs + 1)
    else ⟨bi, bj, bs⟩

/-- The loop above, entered with fuel `ahi - (bi + bs)`.  The fuel is
exactly the number of iterations still possible (`bs` grows by 1 while
`bi + bs < ahi`), so exhausted fuel coincides with a false loop guard
and the unrolling is exact. -/
def extendR (a b : List Char) (ahi bhi bi bj bs : Nat) : BestBlock :=
  extendRGo a b ahi bhi bi bj (ahi - (bi + bs)) bs

/-- difflib `SequenceMatcher.find_longest_match` (with `isjunk = None`
the two final junk-extension loops are no-ops and are omitted). -/
def findLongestMatch (a b : List Char) (alo ahi blo bhi : Nat) : BestBlock :=
  let m := mainLoop a b alo ahi blo bhi
  let l := extendL a b alo blo m.i m.j m.size
  extendR a b ahi bhi l.i l.j l.size

/-- Total size of all matching blocks: the recursive content of
`get_matching_blocks` (the queue-based traversal visits exactly these
subranges; only the sum of the sizes matters for `ratio`).  The guard
restates the bounds `alo ≤ i ≤ i+k ≤ ahi`, `blo ≤ j ≤ j+k ≤ bhi` that
`find_longest_match` guarantees for its result; it makes the recursion
well-founded. -/
def matchSumGo (a b : List Char) : Nat → Nat → Nat → Nat → Nat → Nat
  | 0, _, _, _, _ => 0
  | fuel + 1, alo, ahi, blo, bhi =>
    match findLongestMatch a b alo ahi blo bhi with
    | ⟨i, j, k⟩ =>
      if 0 < k ∧ alo ≤ i ∧ i + k ≤ ahi ∧ blo ≤ j ∧ j + k ≤ bhi then
        matchSumGo a b fuel alo i blo j + k + matchSumGo a b fuel (i + k) ahi (j + k) bhi
      else 0

/-- The recursion above, entered with fuel `(ahi - alo) + (bhi - blo)`.
The guard makes both recursive sub-ranges strictly smaller in this
measure (and a call on a measure-0 range always takes the `else` branch),
so the fuel never runs out and the unrolling is exact
(`matchSum_unfold`). -/
def matchSum (a b : List Char) (alo ahi blo bhi : Nat) : Nat :=
  matchSumGo a b ((ahi - alo) + (bhi - blo)) alo ahi blo bhi

/-- difflib `SequenceMatcher.ratio()`: `2.0 * M / T` where `M` is the
total size of the matching blocks and `T = len(a) + len(b)`; `1.0` when
both strings are empty.  The quotient is written `mkRat (2 * M) T`,
which is the rational number `2 * M / T` (`pyRatio_eq_div`). -/
def pyRatio (a b : List Char) : ℚ :=
  if a.length + b.length = 0 then 1
  else mkRat (2 * matchSum a b 0 a.length 0 b.length) (a.length + b.length)

/-! ## `TextProcessor` (src/text_processor.py) -/

/-- Python `str.strip()` whitespace predicate (ASCII whitespace; the
characters Python strips from ASCII text). -/
def pyIsSpace (c : Char) : Bool :=
  c = ' ' || c = '\t' || c = '\n' || c = '\x0d' || c = '\x0b' || c = '\x0c'

/-- Python `str.strip()`: remove leading and trailing whitespace. -/
def pyStrip (s : List Char) : List Char :=
  ((s.dropWhile pyIsSpace).reverse.dropWhile pyIsSpace).reverse

/-- State of a `TextProcessor`: the configured duplicate threshold, the
accepted `(timestamp, text)` entries in insertion order, and
`_last_text`, the last accepted text (`""` initially and after
`clear()`). -/
structure TextProcessor where
  similarity_threshold : ℚ
  entries : List (Nat × List Char)
  last_text : List Char
deriving DecidableEq

namespace TextProcessor

/-- Constructor `TextProcessor.__init__` (default threshold `0.8`). -/
def init (threshold : ℚ) : TextProcessor := ⟨threshold, [], []⟩

/-- Method `TextProcessor._is_duplicate`: `False` when `_last_text` is empty,
otherwise compare `SequenceMatcher(None, last.lower(), text.lower())
.ratio() >= self.similarity_threshold`. -/
def is_duplicate (p : TextProcessor) (text : List Char) : Bool :=
  if p.last_text = [] then false
  else decide (p.similarity_threshold ≤ pyRatio (pyLower p.last_text) (pyLower text))

/-- Method `TextProcessor.add_text`: strip, reject empty, reject duplicates,
otherwise append `(now, text)` and update `_last_text`.  `now` stands
for `datetime.now()`, supplied by the caller of the model. -/
def add_text (p : TextProcessor) (now : Nat) (text : List Char) : Bool × TextProcessor :=
  let text := pyStrip text
  if text = [] then (false, p)
  else if p.is_duplicate text then (false, p)
  else (true, { p with entries := p.entries ++ [(now, text)], last_text := text })

/-- Method `TextProcessor.get_similarity`. -/
def get_similarity (p : TextProcessor) (text1 text2 : List Char) : ℚ :=
  pyRatio (pyLower text1) (pyLower text2)

/-- Method `TextProcessor.clear`: empty the entries and reset `_last_text`. -/
def clear (p : TextProcessor) : TextProcessor :=
  { p with entries := [], last_text := [] }

end TextProcessor

/-- Two-digit field as produced by `strftime` ("%02d" style) for
`%H`, `%M`, `%S` (the values are below 60, so two digits always). -/
def pad2 (n : Nat) : List Char :=
  if n < 10 then '0' :: Nat.toDigits 10 n else Nat.toDigits 10 n

/-- Models `timestamp.strftime("%H:%M:%S")` for a timestamp in seconds:
hour-of-day, minute-of-hour, second-of-minute, colon-separated. -/
def fmtHMS (t : Nat) : List Char :=
  pad2 (t / 3600 % 24) ++ ':' :: pad2 (t / 60 % 60) ++ ':' :: pad2 (t % 60)

namespace TextProcessor

/-- The file content written by `TextProcessor.save_to_txt`: for each
entry, `f"[{time_str}] {text}\n"` with `time_str = strftime("%H:%M:%S")`. -/
def save_to_txt_content (p : TextProcessor) : List Char :=
  (p.entries.map (fun e => '[' :: fmtHMS e.1 ++ ']' :: ' ' :: e.2 ++ ['\n'])).flatten

/-- One block written by the loop body of `TextProcessor.save_to_srt` for
`(i, (timestamp, text))`: the index line, the `start --> end` line with
`end = timestamp + timedelta(seconds=2)` and `,000` milliseconds, the
text, and a blank line. -/
def srtEntry (i : Nat) (e : Nat × List Char) : List Char :=
  Nat.toDigits 10 i ++ '\n' ::
    (fmtHMS e.1 ++ ",000 --> ".toList ++ fmtHMS (e.1 + 2) ++ ",000\n".toList) ++
    e.2 ++ ['\n', '\n']

/-- The file content written by `TextProcessor.save_to_srt`:
`for i, (timestamp, text) in enumerate(self.entries, 1)`. -/
def save_to_srt_content (p : TextProcessor) : List Char :=
  ((p.entries.enumFrom 1).map (fun ie => srtEntry ie.1 ie.2)).flatten

/-- The content written by `TextProcessor.save`: `save_to_srt` when
`format.lower() == "srt"`, `save_to_txt` otherwise (no other branch, no
error path). -/
def save_content (p : TextProcessor) (format : List Char) : List Char :=
  if pyLower format = "srt".toList then p.save_to_srt_content else p.save_to_txt_content

/-- Method `TextProcessor.save` run against a file system modelled as a single
write operation `fs` that either succeeds or fails.  The Python method
contains no `try`/`except` and assigns no attribute of `self`, so the
outcome is exactly the write's outcome and the processor is returned
unchanged. -/
def save_run (p : TextProcessor) (format : List Char)
    (fs : List Char → Except String Unit) : Except String Unit × TextProcessor :=
  (fs (p.save_content format), p)

end TextProcessor

/-! ## Reachable accumulator states

The UI creates the processor once (`TextProcessor()` in
`MainWindow.__init__`), then only ever calls `add_text` (from
`_on_capture_tick`), `clear` (from `_clear_results`) and `save` (from
`_save_to_file`). -/

/-- Accumulator states reachable from a fresh `TextProcessor` through
the operations the application performs. -/
inductive Reachable : TextProcessor → Prop
  | init (threshold : ℚ) : Reachable (TextProcessor.init threshold)
  | add (p : TextProcessor) (now : Nat) (t : List Char) :
      Reachable p → Reachable (p.add_text now t).2
  | clear (p : TextProcessor) : Reachable p → Reachable p.clear
  | save (p : TextProcessor) (format : List Char)
      (fs : List Char → Except String Unit) :
      Reachable p → Reachable (p.save_run format fs).2

/-- No two adjacent accepted entries are similar: the similarity of each
entry to its immediate successor (computed as the code computes it,
earlier entry first, both case-folded) is below the configured
threshold. -/
def adjacentOK (p : TextProcessor) : Prop :=
  List.Chain'
    (fun e f => ¬ (p.similarity_threshold ≤ pyRatio (pyLower e.2) (pyLower f.2)))
    p.entries

/-! ## Screen capture and the controller tick
(src/capture.py, src/ui/main_window.py) -/

/-- A captured bitmap; the pixel contents are irrelevant to the claims,
only which rectangle was grabbed. -/
structure Image where
  x : Int
  y : Int
  width : Int
  height : Int
deriving DecidableEq

/-- Class `ScreenCapture`: holds the optional capture region `(x, y, w, h)`.
`set_region` always stores a 4-tuple, which is truthy in Python whatever
its numbers are, so `Option` is the faithful model of
`self._region = None` versus a set region. -/
structure ScreenCapture where
  region : Option (Int × Int × Int × Int)
deriving DecidableEq

namespace ScreenCapture

/-- Method `ScreenCapture.set_region`. -/
def set_region (s : ScreenCapture) (x y w h : Int) : ScreenCapture :=
  { s with region := some (x, y, w, h) }

/-- Method `ScreenCapture.capture`: `if not self._region: return None`,
otherwise grab the region and return the image.  `grab` stands for the
external `mss` grab + `PIL.Image.frombytes` pipeline, which always
produces an image. -/
def capture (grab : Int → Int → Int → Int → Image) (s : ScreenCapture) : Option Image :=
  match s.region with
  | none => none
  | some (x, y, w, h) => some (grab x y w h)

end ScreenCapture

/-- A sample external grab collaborator (the capture claims hold for
every `grab`; this one instantiates counterexamples and witnesses). -/
def demoGrab : Int → Int → Int → Int → Image := fun x y w h => ⟨x, y, w, h⟩

/-- Controller tick `MainWindow._on_capture_tick`, restricted to its effect on the
accumulator and the appended UI lines: capture; if no image, return;
otherwise OCR (`ocr` stands for `OCREngine.extract_text`) and
`add_text`; append the text to the result pane only when it was added.
`now` stands for `datetime.now()` inside `add_text`. -/
def onCaptureTick (grab : Int → Int → Int → Int → Image)
    (ocr : Image → List Char) (s : ScreenCapture) (p : TextProcessor)
    (now : Nat) : TextProcessor × List (List Char) :=
  match s.capture grab with
  | none => (p, [])
  | some img =>
    let text := ocr img
    match p.add_text now text with
    | (true, q) => (q, [text])
    | (false, q) => (q, [])

/-! ## Spec-side renderings (for the export refinement claims)

These two definitions follow the words of the spec, not the code: they
are compared with the code-derived `save_to_txt_content` and
`save_to_srt_content`. -/

/-- Spec-side txt rendering: "one line per entry as `[HH:MM:SS] text`",
in insertion order. -/
def txtSpecRender : List (Nat × List Char) → List Char
  | [] => []
  | e :: rest =>
    ('[' :: fmtHMS e.1 ++ ']' :: ' ' :: e.2 ++ ['\n']) ++ txtSpecRender rest

/-- Spec-side srt rendering from block number `n`: "sequential numbered
blocks, each with a synthetic 2-second duration window starting at the
entry's timestamp and text body, blank line between blocks"; the export
claim numbers the blocks from 1. -/
def srtSpecRender (n : Nat) : List (Nat × List Char) → List Char
  | [] => []
  | e :: rest =>
    (Nat.toDigits 10 n ++ '\n' ::
      (fmtHMS e.1 ++ ",000 --> ".toList ++ fmtHMS (e.1 + 2) ++ ",000\n".toList) ++
      e.2 ++ ['\n', '\n']) ++ srtSpecRender (n + 1) rest

/-! ## Verification helpers -/

/-- The value difflib's `j2len` dynamic program takes on the diagonal
when `a` is compared with itself on the window starting at `lo`: the
length of the contiguous run of non-popular positions of `a` ending at
`j`, truncated at `lo`. -/
def diagRun (a : List Char) (lo : Nat) (j : Nat) : Nat :=
  if h1 : lo ≤ j ∧ j < a.length ∧ ¬ isPopular a (a.getD j ' ') then
    (if h2 : lo < j then diagRun a lo (j - 1) else 0) + 1
  else 0
termination_by j
decreasing_by omega

/-! ## Theorems -/

theorem matchSumGo_zero (a b : List Char) (f alo ahi blo bhi : Nat)
    (h : ahi - alo + (bhi - blo) = 0) : matchSumGo a b f alo ahi blo bhi = 0 := by
  cases f with
  | zero => rfl
  | succ m =>
    rw [matchSumGo]
    rcases hf : findLongestMatch a b alo ahi blo bhi with ⟨i, j, k⟩
    simp only [hf]
    rw [if_neg (by omega)]

theorem matchSumGo_congr (a b : List Char) :
    ∀ f1 f2 alo ahi blo bhi : Nat,
      ahi - alo + (bhi - blo) ≤ f1 → ahi - alo + (bhi - blo) ≤ f2 →
      matchSumGo a b f1 alo ahi blo bhi = matchSumGo a b f2 alo ahi blo bhi := by
  intro f1
  induction f1 with
  | zero =>
    intro f2 alo ahi blo bhi h1 h2
    rw [matchSumGo_zero a b 0 alo ahi blo bhi (by omega),
      matchSumGo_zero a b f2 alo ahi blo bhi (by omega)]
  | succ m ih =>
    intro f2 alo ahi blo bhi h1 h2
    by_cases hM : ahi - alo + (bhi - blo) = 0
    · rw [matchSumGo_zero a b _ alo ahi blo bhi hM,
        matchSumGo_zero a b _ alo ahi blo bhi hM]
    · obtain ⟨m2, rfl⟩ : ∃ m2, f2 = m2 + 1 := by
        cases f2 with
        | zero => omega
        | succ m2 => exact ⟨m2, rfl⟩
      rw [matchSumGo, matchSumGo]
      rcases hf : findLongestMatch a b alo ahi blo bhi with ⟨i, j, k⟩
      simp only [hf]
      by_cases hg : 0 < k ∧ alo ≤ i ∧ i + k ≤ ahi ∧ blo ≤ j ∧ j + k ≤ bhi
      · rw [if_pos hg, if_pos hg,
          ih m2 alo i blo j (by omega) (by omega),
          ih m2 (i + k) ahi (j + k) bhi (by omega) (by omega)]
      · rw [if_neg hg, if_neg hg]

/-- Exact unrolling of `matchSum`: the fuel never runs out. -/
theorem matchSum_unfold (a b : List Char) (alo ahi blo bhi : Nat) :
    matchSum a b alo ahi blo bhi
      = match findLongestMatch a b alo ahi blo bhi with
        | ⟨i, j, k⟩ =>
          if 0 < k ∧ alo ≤ i ∧ i + k ≤ ahi ∧ blo ≤ j ∧ j + k ≤ bhi then
            matchSum a b alo i blo j + k + matchSum a b (i + k) ahi (j + k) bhi
          else 0 := by
  unfold matchSum
  rcases hf : findLongestMatch a b alo ahi blo bhi with ⟨i, j, k⟩
  simp only [hf]
  by_cases hg : 0 < k ∧ alo ≤ i ∧ i + k ≤ ahi ∧ blo ≤ j ∧ j + k ≤ bhi
  · obtain ⟨m, hm⟩ : ∃ m, ahi - alo + (bhi - blo) = m + 1 := by
      refine ⟨ahi - alo + (bhi - blo) - 1, ?_⟩
      omega
    rw [hm, matchSumGo]
    simp only [hf]
    rw [if_pos hg, if_pos hg,
      matchSumGo_congr a b m (i - alo + (j - blo)) alo i blo j (by omega) (by omega),
      matchSumGo_congr a b m (ahi - (i + k) + (bhi - (j + k))) (i + k) ahi (j + k) bhi
        (by omega) (by omega)]
  · rw [if_neg hg]
    cases hM : ahi - alo + (bhi - blo) with
    | zero => rfl
    | succ m =>
      rw [matchSumGo]
      simp only [hf]
      rw [if_neg hg]

/-- The value of `pyRatio` is the rational number `2 * M / T`. -/
theorem pyRatio_eq_div (a b : List Char) :
    pyRatio a b
      = if a.length + b.length = 0 then 1
        else 2 * (matchSum a b 0 a.length 0 b.length : ℚ)
              / ((a.length : ℚ) + (b.length : ℚ)) := by
  unfold pyRatio
  split
  · rfl
  · rw [Rat.mkRat_eq_div]
    push_cast
    ring

theorem pyRatio_nil_left (s : List Char) (h : s ≠ []) : pyRatio [] s = 0 := by
  have hm : matchSum [] s 0 0 0 s.length = 0 := by
    rw [matchSum_unfold]
    have h1 : findLongestMatch [] s 0 0 0 s.length = ⟨0, 0, 0⟩ := rfl
    simp only [h1]
    rw [if_neg (by omega)]
  simp only [pyRatio, List.length_nil, hm]
  rw [if_neg (by simpa using h)]
  simp [Rat.mkRat_eq_div]

theorem add_text_of_empty (p : TextProcessor) (now : Nat) (t : List Char)
    (h : pyStrip t = []) : p.add_text now t = (false, p) := by
  simp [TextProcessor.add_text, h]

theorem add_text_of_dup (p : TextProcessor) (now : Nat) (t : List Char)
    (h : pyStrip t ≠ []) (hd : p.is_duplicate (pyStrip t) = true) :
    p.add_text now t = (false, p) := by
  simp [TextProcessor.add_text, h, hd]

theorem add_text_of_new (p : TextProcessor) (now : Nat) (t : List Char)
    (h : pyStrip t ≠ []) (hd : p.is_duplicate (pyStrip t) = false) :
    p.add_text now t
      = (true, { p with entries := p.entries ++ [(now, pyStrip t)],
                        last_text := pyStrip t }) := by
  simp [TextProcessor.add_text, h, hd]

/-- Claim C4: a string that strips to nothing (empty or all-whitespace) is
rejected: `add_text` returns `false` and the state — entries and
last-accepted text — is exactly the old one. -/
theorem add_text_blank (p : TextProcessor) (now : Nat) (t : List Char)
    (h : pyStrip t = []) : p.add_text now t = (false, p) :=
  add_text_of_empty p now t h

theorem add_text_blank_witness :
    pyStrip "   ".toList = [] ∧
      (TextProcessor.init (4/5)).add_text 0 "   ".toList = (false, TextProcessor.init (4/5)) :=
  ⟨by decide, add_text_blank (TextProcessor.init (4/5)) 0 "   ".toList (by decide)⟩

/-- Claim C1: for a candidate whose stripped form is non-empty: if its
similarity to the last accepted text is below the threshold, `add_text`
appends exactly one `(timestamp, text)` entry, updates the last-accepted
text, returns `true`, and the entry count grows by exactly 1; if the
similarity is at least the (positive) configured threshold — `0.8` by
default — it returns `false` and appends nothing. -/
theorem add_text_spec (p : TextProcessor) (now : Nat) (t : List Char) :
    (pyStrip t ≠ [] →
      pyRatio (pyLower p.last_text) (pyLower (pyStrip t)) < p.similarity_threshold →
      p.add_text now t
          = (true, { p with entries := p.entries ++ [(now, pyStrip t)],
                            last_text := pyStrip t })
        ∧ (p.add_text now t).2.entries.length = p.entries.length + 1)
    ∧ (0 < p.similarity_threshold → pyStrip t ≠ [] →
      p.similarity_threshold ≤ pyRatio (pyLower p.last_text) (pyLower (pyStrip t)) →
      p.add_text now t = (false, p)) := by
  constructor
  · intro hne hlt
    have hd : p.is_duplicate (pyStrip t) = false := by
      unfold TextProcessor.is_duplicate
      split
      · rfl
      · simp only [decide_eq_false_iff_not, not_le]
        exact hlt
    have he := add_text_of_new p now t hne hd
    exact ⟨he, by rw [he]; simp⟩
  · intro hpos hne hge
    have hlast : p.last_text ≠ [] := by
      intro hl
      have hs : pyLower (pyStrip t) ≠ [] := by
        simpa [pyLower] using hne
      have h0 : pyRatio (pyLower p.last_text) (pyLower (pyStrip t)) = 0 := by
        rw [hl]
        exact pyRatio_nil_left _ hs
      rw [h0] at hge
      exact absurd (lt_of_lt_of_le hpos hge) (lt_irrefl 0)
    have hd : p.is_duplicate (pyStrip t) = true := by
      unfold TextProcessor.is_duplicate
      rw [if_neg hlast]
      exact decide_eq_true hge
    exact add_text_of_dup p now t hne hd

/-- Claim C7: `clear` empties the entries and resets the last-accepted
text; consequently a `clear` followed by `add_text` of any non-blank
text accepts it and yields exactly that one entry, independently of
everything accepted before the `clear` (the duplicate check compares
against nothing). -/
theorem clear_add_spec (p : TextProcessor) (now : Nat) (t : List Char)
    (h : pyStrip t ≠ []) :
    p.clear.entries = [] ∧ p.clear.last_text = [] ∧
    p.clear.add_text now t
      = (true, { p.clear with entries := [(now, pyStrip t)],
                              last_text := pyStrip t }) := by
  refine ⟨rfl, rfl, ?_⟩
  have hd : p.clear.is_duplicate (pyStrip t) = false := by
    unfold TextProcessor.is_duplicate
    exact if_pos rfl
  simpa using add_text_of_new p.clear now t h hd

theorem clear_add_spec_witness :
    (TextProcessor.mk (4/5) [(0, "Hello, world!".toList)]
        "Hello, world!".toList).clear.add_text 5 "Hello, world!".toList
      = (true, TextProcessor.mk (4/5) [(5, pyStrip "Hello, world!".toList)]
          (pyStrip "Hello, world!".toList)) :=
  (clear_add_spec (TextProcessor.mk (4/5) [(0, "Hello, world!".toList)]
      "Hello, world!".toList) 5 "Hello, world!".toList (by decide)).2.2

/-- Claim C8: export never mutates the accumulator, and the outcome of the
export is exactly the outcome of the file-system write — a failing write
surfaces as the result, with the entries and last-accepted text intact
(the Python methods contain no `try`/`except` and assign no attribute). -/
theorem save_run_spec (p : TextProcessor) (format : List Char)
    (fs : List Char → Except String Unit) :
    (p.save_run format fs).2 = p
      ∧ (p.save_run format fs).1 = fs (p.save_content format) :=
  ⟨rfl, rfl⟩

/-- Claim C10: `save` writes the txt format for every format string whose
lowercased value is not `"srt"`, the srt format exactly when it is, and
never rejects a format value (the output is always one of the two). -/
theorem save_format_spec (p : TextProcessor) (format : List Char) :
    (pyLower format ≠ "srt".toList →
        p.save_content format = p.save_to_txt_content)
    ∧ (pyLower format = "srt".toList →
        p.save_content format = p.save_to_srt_content)
    ∧ (p.save_content format = p.save_to_txt_content
        ∨ p.save_content format = p.save_to_srt_content) := by
  refine ⟨fun h => ?_, fun h => ?_, ?_⟩
  · rw [TextProcessor.save_content, if_neg h]
  · rw [TextProcessor.save_content, if_pos h]
  · by_cases h : pyLower format = "srt".toList
    · exact Or.inr (by rw [TextProcessor.save_content, if_pos h])
    · exact Or.inl (by rw [TextProcessor.save_content, if_neg h])

theorem save_format_spec_witness :
    (TextProcessor.init 1).save_content "TXT".toList
      = (TextProcessor.init 1).save_to_txt_content :=
  (save_format_spec (TextProcessor.init 1) "TXT".toList).1 (by decide)

/-- Claim C6: the txt export is, entry for entry in insertion order, the
`[HH:MM:SS] text` record described by the spec. -/
theorem txt_render_eq (l : List (Nat × List Char)) :
    (l.map (fun e => '[' :: fmtHMS e.1 ++ ']' :: ' ' :: e.2 ++ ['\n'])).flatten
      = txtSpecRender l := by
  induction l with
  | nil => rfl
  | cons e rest ih =>
    simp only [List.map_cons, List.flatten_cons, txtSpecRender, ih]

theorem save_to_txt_spec (p : TextProcessor) :
    p.save_to_txt_content = txtSpecRender p.entries := by
  unfold TextProcessor.save_to_txt_content
  exact txt_render_eq p.entries

theorem srt_render_eq (l : List (Nat × List Char)) (n : Nat) :
    ((l.enumFrom n).map (fun ie => TextProcessor.srtEntry ie.1 ie.2)).flatten
      = srtSpecRender n l := by
  induction l generalizing n with
  | nil => rfl
  | cons e rest ih =>
    simp only [List.enumFrom, List.map_cons, List.flatten_cons, srtSpecRender, ih]
    rfl

/-- Claim C5: the srt export is, block for block in insertion order, the
spec's rendering: blocks numbered from 1, each with a timestamp line
whose end time is the start time plus exactly 2 seconds, the entry text,
and a blank line. -/
theorem save_to_srt_spec (p : TextProcessor) :
    p.save_to_srt_content = srtSpecRender 1 p.entries := by
  unfold TextProcessor.save_to_srt_content
  exact srt_render_eq p.entries 1

/-- Claim C9, counterexample: a capture region that is set but empty (all
zeros — zero width and height) does not make `capture` return `None`:
the Python guard `if not self._region` only fires for the unset region,
a zero tuple being truthy. -/
theorem capture_set_empty_region_ne_none :
    ScreenCapture.capture demoGrab ⟨some (0, 0, 0, 0)⟩ ≠ none := by
  simp [ScreenCapture.capture]

/-- Claim C9, amended: `capture` returns no image exactly when the region
is unset (a set region is grabbed whatever its numbers, including an
empty rectangle), and a controller tick whose capture returns no image
performs no OCR and no `add_text`: the accumulator and the UI appends
are unchanged by that tick. -/
theorem capture_tick_spec (grab : Int → Int → Int → Int → Image)
    (ocr : Image → List Char) (s : ScreenCapture) (p : TextProcessor)
    (now : Nat) :
    (s.region = none → s.capture grab = none)
    ∧ (∀ r, s.region = some r → s.capture grab ≠ none)
    ∧ (s.capture grab = none →
        (onCaptureTick grab ocr s p now).1 = p
          ∧ (onCaptureTick grab ocr s p now).2 = []) := by
  refine ⟨?_, ?_, ?_⟩
  · intro h
    simp [ScreenCapture.capture, h]
  · rintro ⟨x, y, w, h⟩ hr
    simp [ScreenCapture.capture, hr]
  · intro h
    simp [onCaptureTick, h]

theorem capture_tick_spec_witness :
    (onCaptureTick demoGrab (fun _ => []) ⟨none⟩ (TextProcessor.init 1) 0).1
        = TextProcessor.init 1
      ∧ (onCaptureTick demoGrab (fun _ => []) ⟨none⟩ (TextProcessor.init 1) 0).2 = [] :=
  (capture_tick_spec demoGrab (fun _ => []) ⟨none⟩ (TextProcessor.init 1) 0).2.2 rfl

/-! ### Bounds on the total match size -/

theorem matchSum_le_a (a b : List Char) (alo ahi blo bhi : Nat) :
    matchSum a b alo ahi blo bhi ≤ ahi - alo := by
  rw [matchSum_unfold]
  rcases hf : findLongestMatch a b alo ahi blo bhi with ⟨i, j, k⟩
  simp only [hf]
  by_cases hg : 0 < k ∧ alo ≤ i ∧ i + k ≤ ahi ∧ blo ≤ j ∧ j + k ≤ bhi
  · rw [if_pos hg]
    have h1 := matchSum_le_a a b alo i blo j
    have h2 := matchSum_le_a a b (i + k) ahi (j + k) bhi
    omega
  · rw [if_neg hg]
    omega
termination_by ahi - alo + (bhi - blo)
decreasing_by all_goals omega

theorem matchSum_le_b (a b : List Char) (alo ahi blo bhi : Nat) :
    matchSum a b alo ahi blo bhi ≤ bhi - blo := by
  rw [matchSum_unfold]
  rcases hf : findLongestMatch a b alo ahi blo bhi with ⟨i, j, k⟩
  simp only [hf]
  by_cases hg : 0 < k ∧ alo ≤ i ∧ i + k ≤ ahi ∧ blo ≤ j ∧ j + k ≤ bhi
  · rw [if_pos hg]
    have h1 := matchSum_le_b a b alo i blo j
    have h2 := matchSum_le_b a b (i + k) ahi (j + k) bhi
    omega
  · rw [if_neg hg]
    omega
termination_by ahi - alo + (bhi - blo)
decreasing_by all_goals omega

theorem pyRatio_nonneg (a b : List Char) : 0 ≤ pyRatio a b := by
  rw [pyRatio_eq_div]
  split
  · norm_num
  · positivity

theorem pyRatio_le_one (a b : List Char) : pyRatio a b ≤ 1 := by
  rw [pyRatio_eq_div]
  split
  · norm_num
  · rename_i h
    have h1 := matchSum_le_a a b 0 a.length 0 b.length
    have h2 := matchSum_le_b a b 0 a.length 0 b.length
    have hlen : (0 : ℚ) < (a.length : ℚ) + (b.length : ℚ) := by
      have : 0 < a.length + b.length := Nat.pos_of_ne_zero h
      exact_mod_cast this
    rw [div_le_one hlen]
    have : 2 * matchSum a b 0 a.length 0 b.length ≤ a.length + b.length := by omega
    exact_mod_cast this

/-! ### The main loop of `find_longest_match` on `a` vs `a` stays on the
diagonal.

`diagRun a lo j` is the value the `j2len` dynamic program takes at the
diagonal position `j`; every off-diagonal candidate is dominated by a
diagonal one that the scan has already seen, so the running best block
always satisfies `besti = bestj`. -/

theorem diagRun_eq_succ (a : List Char) (lo j : Nat)
    (h1 : lo ≤ j) (h2 : j < a.length) (h3 : ¬ isPopular a (a.getD j ' ')) :
    diagRun a lo j = (if lo < j then diagRun a lo (j - 1) else 0) + 1 := by
  rw [diagRun, dif_pos ⟨h1, h2, h3⟩]
  rw [dite_eq_ite]

theorem diagRun_eq_zero (a : List Char) (lo j : Nat)
    (h : ¬(lo ≤ j ∧ j < a.length ∧ ¬ isPopular a (a.getD j ' '))) :
    diagRun a lo j = 0 := by
  rw [diagRun, dif_neg h]

theorem diagRun_zero_of_lt (a : List Char) (lo j : Nat) (h : j < lo) :
    diagRun a lo j = 0 :=
  diagRun_eq_zero a lo j (by rintro ⟨h1, -, -⟩; omega)

theorem diagRun_le (a : List Char) (lo j : Nat) : diagRun a lo j ≤ j + 1 - lo := by
  rw [diagRun]
  split
  · rename_i h1
    obtain ⟨h1a, -, -⟩ := h1
    split
    · rename_i h2
      have ih := diagRun_le a lo (j - 1)
      omega
    · omega
  · omega
termination_by j
decreasing_by omega

theorem mem_b2j (b : List Char) (c : Char) (j : Nat) (h : j ∈ b2j b c) :
    j < b.length ∧ b.getD j ' ' = c ∧ ¬ isPopular b c := by
  unfold b2j at h
  split at h
  · simp at h
  · rename_i hpop
    unfold indicesIn at h
    simp only [List.mem_filter, List.mem_range, decide_eq_true_eq] at h
    obtain ⟨hj, he⟩ := h
    refine ⟨hj, ?_, hpop⟩
    rw [List.getD_eq_getElem?_getD, ← List.get?_eq_getElem?, he]
    rfl

theorem b2j_sorted (b : List Char) (c : Char) : (b2j b c).Pairwise (· < ·) := by
  unfold b2j
  split
  · exact List.Pairwise.nil
  · exact (List.pairwise_lt_range _).filter _

theorem self_mem_b2j (a : List Char) (i : Nat) (h : i < a.length)
    (hp : ¬ isPopular a (a.getD i ' ')) : i ∈ b2j a (a.getD i ' ') := by
  unfold b2j
  rw [if_neg hp]
  unfold indicesIn
  simp only [List.mem_filter, List.mem_range, decide_eq_true_eq]
  refine ⟨h, ?_⟩
  rw [List.get?_eq_getElem?, List.getElem?_eq_getElem h, List.getD_eq_getElem?_getD,
    List.getElem?_eq_getElem h]
  rfl

/-- Scanning a list of candidate columns none of which can beat the
current best block leaves the best block unchanged and only writes
bounded values into the fresh row. -/
theorem foldl_innerStep_const_best
    (a : List Char) (lo hi i : Nat) (j2len : Nat → Nat) (dTop : Nat) (b : BestBlock) :
    ∀ js : List Nat,
      (∀ j ∈ js, j ≠ i ∧ (lo ≤ j → j < hi →
        (if j = 0 then 0 else j2len (j - 1)) + 1 ≤ diagRun a lo j
        ∧ (if j = 0 then 0 else j2len (j - 1)) + 1 ≤ dTop
        ∧ (if j = 0 then 0 else j2len (j - 1)) + 1 ≤ b.size)) →
      ∀ nj : Nat → Nat,
        (∀ x, nj x ≤ diagRun a lo x ∧ nj x ≤ dTop) →
        (js.foldl (innerStep j2len lo hi i) (nj, b)).2 = b
        ∧ (∀ x, (js.foldl (innerStep j2len lo hi i) (nj, b)).1 x ≤ diagRun a lo x
            ∧ (js.foldl (innerStep j2len lo hi i) (nj, b)).1 x ≤ dTop)
        ∧ (js.foldl (innerStep j2len lo hi i) (nj, b)).1 i = nj i := by
  intro js
  induction js with
  | nil =>
    intro _ nj hnj
    exact ⟨rfl, hnj, rfl⟩
  | cons j js ih =>
    intro hjs nj hnj
    have hj := hjs j (List.mem_cons_self j js)
    have hjs' := fun x hx => hjs x (List.mem_cons_of_mem j hx)
    simp only [List.foldl_cons]
    by_cases hg : lo ≤ j ∧ j < hi
    · obtain ⟨hne, hk⟩ := hj
      obtain ⟨hk1, hk2, hk3⟩ := hk hg.1 hg.2
      have hstep : innerStep j2len lo hi i (nj, b) j
          = ((fun x => if x = j then (if j = 0 then 0 else j2len (j - 1)) + 1 else nj x), b) := by
        unfold innerStep
        rw [if_pos hg]
        dsimp only
        rw [if_neg (by omega)]
      rw [hstep]
      have hres := ih hjs'
        (fun x => if x = j then (if j = 0 then 0 else j2len (j - 1)) + 1 else nj x) ?_
      · refine ⟨hres.1, hres.2.1, ?_⟩
        rw [hres.2.2]
        simp only [if_neg (show ¬(i = j) from fun hij => hne hij.symm)]
      · intro x
        by_cases hx : x = j
        · subst hx
          simp only [if_pos rfl]
          exact ⟨hk1, hk2⟩
        · simp only [if_neg hx]
          exact hnj x
    · have hstep : innerStep j2len lo hi i (nj, b) j = (nj, b) := by
        unfold innerStep
        rw [if_neg hg]
      rw [hstep]
      exact ih hjs' nj hnj

/-- One row of the main loop of `find_longest_match` on `a` vs `a`
preserves the diagonal invariant: the best block stays diagonal and in
range, the new row is bounded by `diagRun`, and the diagonal cell of the
new row is exactly `diagRun a lo i`. -/
theorem procRow_diag_inv
    (a : List Char) (lo hi : Nat) (hhi : hi ≤ a.length)
    (i : Nat) (hloi : lo ≤ i) (hihi : i < hi)
    (j2len : Nat → Nat) (best : BestBlock)
    (hb1 : best.i = best.j) (hb2 : lo ≤ best.i) (hb3 : best.i + best.size ≤ i)
    (hP2 : ∀ x, j2len x ≤ diagRun a lo x)
    (hP3 : ∀ x, j2len x ≤ (if lo < i then diagRun a lo (i - 1) else 0))
    (hP4 : ∀ x, x < i → diagRun a lo x ≤ best.size)
    (hP5 : lo < i → j2len (i - 1) = diagRun a lo (i - 1)) :
    ∃ nj bb, procRow a a lo hi (j2len, best) i = (nj, bb)
      ∧ bb.i = bb.j ∧ lo ≤ bb.i ∧ bb.i + bb.size ≤ i + 1
      ∧ (∀ x, nj x ≤ diagRun a lo x)
      ∧ (∀ x, nj x ≤ diagRun a lo i)
      ∧ (∀ x, x < i + 1 → diagRun a lo x ≤ bb.size)
      ∧ nj i = diagRun a lo i := by
  have hilen : i < a.length := lt_of_lt_of_le hihi hhi
  unfold procRow
  by_cases hpop : isPopular a (a.getD i ' ')
  · have hjs : b2j a (a.getD i ' ') = [] := by unfold b2j; rw [if_pos hpop]
    have hdi : diagRun a lo i = 0 :=
      diagRun_eq_zero a lo i (by rintro ⟨-, -, hc⟩; exact hc hpop)
    rw [hjs]
    refine ⟨(fun _ => 0), best, rfl, hb1, hb2, by omega, ?_, ?_, ?_, ?_⟩
    · intro x; exact Nat.zero_le _
    · intro x; exact Nat.zero_le _
    · intro x hx
      rcases Nat.lt_succ_iff_lt_or_eq.mp hx with h | h
      · exact hP4 x h
      · subst h; rw [hdi]; exact Nat.zero_le _
    · rw [hdi]
  · have hdi : diagRun a lo i = (if lo < i then diagRun a lo (i - 1) else 0) + 1 :=
      diagRun_eq_succ a lo i hloi hilen hpop
    have kfact : ∀ j ∈ b2j a (a.getD i ' '), lo ≤ j → j < hi →
        (if j = 0 then 0 else j2len (j - 1)) + 1 ≤ diagRun a lo j
        ∧ (if j = 0 then 0 else j2len (j - 1)) + 1 ≤ diagRun a lo i := by
      intro j hj hloj hjhi
      obtain ⟨hjlen, hcj, -⟩ := mem_b2j a (a.getD i ' ') j hj
      have hpopj : ¬ isPopular a (a.getD j ' ') := by rw [hcj]; exact hpop
      have hdj : diagRun a lo j = (if lo < j then diagRun a lo (j - 1) else 0) + 1 :=
        diagRun_eq_succ a lo j hloj hjlen hpopj
      constructor
      · by_cases hlj : lo < j
        · rw [hdj, if_pos hlj, if_neg (by omega : ¬(j = 0))]
          exact Nat.add_le_add_right (hP2 (j - 1)) 1
        · rw [hdj, if_neg hlj]
          by_cases hj0 : j = 0
          · rw [if_pos hj0]
          · rw [if_neg hj0]
            have h1 : j2len (j - 1) ≤ diagRun a lo (j - 1) := hP2 (j - 1)
            have hz : diagRun a lo (j - 1) = 0 :=
              diagRun_zero_of_lt a lo (j - 1) (by omega)
            omega
      · rw [hdi]
        by_cases hj0 : j = 0
        · rw [if_pos hj0]; omega
        · rw [if_neg hj0]
          have h1 := hP3 (j - 1)
          omega
    have hmem : i ∈ b2j a (a.getD i ' ') := self_mem_b2j a i hilen hpop
    obtain ⟨L, R, hsplit⟩ := List.append_of_mem hmem
    have hsort := b2j_sorted a (a.getD i ' ')
    rw [hsplit] at hsort
    rw [List.pairwise_append] at hsort
    have hLlt : ∀ x ∈ L, x < i := fun x hx =>
      hsort.2.2 x hx i (List.mem_cons_self i R)
    have hRgt : ∀ x ∈ R, i < x := (List.pairwise_cons.mp hsort.2.1).1
    rw [hsplit, List.foldl_append, List.foldl_cons]
    have hA := foldl_innerStep_const_best a lo hi i j2len (diagRun a lo i) best L
      (fun j hj => ⟨by have := hLlt j hj; omega, fun hlo2 hhi2 => by
        have hk := kfact j (by rw [hsplit]; exact List.mem_append_left _ hj) hlo2 hhi2
        exact ⟨hk.1, hk.2, le_trans hk.1 (hP4 j (hLlt j hj))⟩⟩)
      (fun _ => 0) (fun x => ⟨Nat.zero_le _, Nat.zero_le _⟩)
    obtain ⟨hA1, hA2, -⟩ := hA
    set stl := L.foldl (innerStep j2len lo hi i) ((fun _ => 0), best) with hstl
    set ki := (if i = 0 then 0 else j2len (i - 1)) + 1 with hki_def
    have hki : ki = diagRun a lo i := by
      rw [hdi, hki_def]
      by_cases hloi2 : lo < i
      · rw [if_pos hloi2, if_neg (by omega : ¬(i = 0)), hP5 hloi2]
      · rw [if_neg hloi2]
        by_cases hi0 : i = 0
        · rw [if_pos hi0]
        · rw [if_neg hi0]
          have h1 := hP3 (i - 1)
          rw [if_neg hloi2] at h1
          omega
    have hkle : ki ≤ i + 1 - lo := by rw [hki]; exact diagRun_le a lo i
    have hstep : innerStep j2len lo hi i stl i
        = if best.size < ki then
            ((fun x => if x = i then ki else stl.1 x), ⟨i + 1 - ki, i + 1 - ki, ki⟩)
          else ((fun x => if x = i then ki else stl.1 x), best) := by
      unfold innerStep
      rw [if_pos (⟨hloi, hihi⟩ : lo ≤ i ∧ i < hi)]
      dsimp only
      rw [hA1]
    by_cases hcmp : best.size < ki
    · rw [hstep, if_pos hcmp]
      have hB := foldl_innerStep_const_best a lo hi i j2len (diagRun a lo i)
        ⟨i + 1 - ki, i + 1 - ki, ki⟩ R
        (fun j hj => ⟨by have := hRgt j hj; omega, fun hlo2 hhi2 => by
          have hk := kfact j
            (by rw [hsplit]; exact List.mem_append_right _ (List.mem_cons_of_mem _ hj))
            hlo2 hhi2
          exact ⟨hk.1, hk.2, by simpa [hki] using hk.2⟩⟩)
        (fun x => if x = i then ki else stl.1 x)
        (fun x => by
          by_cases hx : x = i
          · subst hx
            simp only [if_pos rfl]
            exact ⟨le_of_eq hki, le_of_eq hki⟩
          · simp only [if_neg hx]
            exact hA2 x)
      obtain ⟨hB1, hB2, hB3⟩ := hB
      refine ⟨_, _, rfl, ?_, ?_, ?_, fun x => (hB2 x).1, fun x => (hB2 x).2, ?_, ?_⟩
      · rw [hB1]
      · rw [hB1]
        simp only
        omega
      · rw [hB1]
        simp only
        omega
      · intro x hx
        rw [hB1]
        simp only
        rcases Nat.lt_succ_iff_lt_or_eq.mp hx with h | h
        · exact le_trans (hP4 x h) (by omega)
        · subst h; omega
      · rw [hB3]
        simp only [if_pos rfl]
        exact hki
    · rw [hstep, if_neg hcmp]
      have hB := foldl_innerStep_const_best a lo hi i j2len (diagRun a lo i) best R
        (fun j hj => ⟨by have := hRgt j hj; omega, fun hlo2 hhi2 => by
          have hk := kfact j
            (by rw [hsplit]; exact List.mem_append_right _ (List.mem_cons_of_mem _ hj))
            hlo2 hhi2
          exact ⟨hk.1, hk.2, le_trans hk.2 (by omega)⟩⟩)
        (fun x => if x = i then ki else stl.1 x)
        (fun x => by
          by_cases hx : x = i
          · subst hx
            simp only [if_pos rfl]
            exact ⟨le_of_eq hki, le_of_eq hki⟩
          · simp only [if_neg hx]
            exact hA2 x)
      obtain ⟨hB1, hB2, hB3⟩ := hB
      refine ⟨_, _, rfl, ?_, ?_, ?_, fun x => (hB2 x).1, fun x => (hB2 x).2, ?_, ?_⟩
      · rw [hB1]; exact hb1
      · rw [hB1]; exact hb2
      · rw [hB1]; omega
      · intro x hx
        rw [hB1]
        rcases Nat.lt_succ_iff_lt_or_eq.mp hx with h | h
        · exact hP4 x h
        · subst h; omega
      · rw [hB3]
        simp only [if_pos rfl]
        exact hki

/-- Folding the rows `i0, i0+1, …, i0+t-1` of the main loop on `a` vs
`a` propagates the diagonal invariant. -/
theorem rows_diag_inv (a : List Char) (lo hi : Nat) (hhi : hi ≤ a.length) :
    ∀ (t i0 : Nat) (j2len : Nat → Nat) (best : BestBlock),
      lo ≤ i0 → i0 + t ≤ hi →
      best.i = best.j → lo ≤ best.i → best.i + best.size ≤ i0 →
      (∀ x, j2len x ≤ diagRun a lo x) →
      (∀ x, j2len x ≤ (if lo < i0 then diagRun a lo (i0 - 1) else 0)) →
      (∀ x, x < i0 → diagRun a lo x ≤ best.size) →
      (lo < i0 → j2len (i0 - 1) = diagRun a lo (i0 - 1)) →
      ∃ nj bb, (List.range' i0 t).foldl (procRow a a lo hi) (j2len, best) = (nj, bb)
        ∧ bb.i = bb.j ∧ lo ≤ bb.i ∧ bb.i + bb.size ≤ i0 + t
        ∧ (∀ x, x < i0 + t → diagRun a lo x ≤ bb.size) := by
  intro t
  induction t with
  | zero =>
    intro i0 j2len best h1 h2 h3 h4 h5 h6 h7 h8 h9
    exact ⟨j2len, best, rfl, h3, h4, by omega, fun x hx => h8 x (by omega)⟩
  | succ t ih =>
    intro i0 j2len best h1 h2 h3 h4 h5 h6 h7 h8 h9
    rw [List.range'_succ, List.foldl_cons]
    obtain ⟨nj1, bb1, heq, hq1, hq2, hq3, hq5, hq6, hq7, hq8⟩ :=
      procRow_diag_inv a lo hi hhi i0 h1 (by omega) j2len best h3 h4 h5 h6 h7 h8 h9
    rw [heq]
    obtain ⟨nj2, bb2, heq2, hr1, hr2, hr3, hr4⟩ :=
      ih (i0 + 1) nj1 bb1 (by omega) (by omega) hq1 hq2 hq3 hq5
        (by
          intro x
          rw [if_pos (by omega : lo < i0 + 1)]
          simpa using hq6 x)
        hq7
        (by
          intro _
          simpa using hq8)
    exact ⟨nj2, bb2, heq2, hr1, hr2, by omega, fun x hx => hr4 x (by omega)⟩

/-- On equal ranges of `a` vs `a`, the main loop's best block is
diagonal, starts at or after `lo`, and ends at or before `hi`. -/
theorem mainLoop_diag (a : List Char) (lo hi : Nat) (hhi : hi ≤ a.length) (hlh : lo ≤ hi) :
    (mainLoop a a lo hi lo hi).i = (mainLoop a a lo hi lo hi).j
    ∧ lo ≤ (mainLoop a a lo hi lo hi).i
    ∧ (mainLoop a a lo hi lo hi).i + (mainLoop a a lo hi lo hi).size ≤ hi := by
  obtain ⟨nj, bb, heq, hp1, hp2, hp3, -⟩ :=
    rows_diag_inv a lo hi hhi (hi - lo) lo (fun _ => 0) ⟨lo, lo, 0⟩
      (le_refl lo) (by omega) rfl (le_refl lo) (by simp)
      (fun x => Nat.zero_le _) (fun x => Nat.zero_le _)
      (fun x hx => le_of_eq (diagRun_zero_of_lt a lo x hx))
      (fun h => absurd h (by omega))
  unfold mainLoop
  rw [heq]
  refine ⟨hp1, hp2, ?_⟩
  show bb.i + bb.size ≤ hi
  omega

/-- Running `extendL` on a diagonal block over `a` vs `a` extends all the way
back to `alo`. -/
theorem extendL_diag (a : List Char) (lo : Nat) :
    ∀ d s, lo ≤ d → extendL a a lo lo d d s = ⟨lo, lo, s + (d - lo)⟩ := by
  intro d
  induction d with
  | zero =>
    intro s h
    have hlo : lo = 0 := by omega
    subst hlo
    rfl
  | succ d ih =>
    intro s h
    by_cases hl : lo < d + 1
    · rw [extendL, if_pos ⟨hl, hl, by rw [Nat.add_sub_cancel]⟩, Nat.add_sub_cancel]
      rw [ih (s + 1) (by omega)]
      have : s + 1 + (d - lo) = s + (d + 1 - lo) := by omega
      rw [this]
    · have hlo : lo = d + 1 := by omega
      rw [extendL, if_neg (by rintro ⟨hc, -, -⟩; omega)]
      subst hlo
      simp

/-- Running `extendR` on a diagonal block over `a` vs `a` extends all the way
to `ahi`. -/
theorem extendRGo_diag (a : List Char) (hi lo : Nat) :
    ∀ fuel s, fuel = hi - (lo + s) → lo + s ≤ hi →
      extendRGo a a hi hi lo lo fuel s = ⟨lo, lo, hi - lo⟩ := by
  intro fuel
  induction fuel with
  | zero =>
    intro s h1 h2
    have hs : s = hi - lo := by omega
    rw [extendRGo, hs]
  | succ f ih =>
    intro s h1 h2
    have hlt : lo + s < hi := by omega
    rw [extendRGo, if_pos ⟨hlt, hlt, rfl⟩]
    exact ih (s + 1) (by omega) (by omega)

/-- On equal ranges of `a` against itself, `find_longest_match` returns
the whole range: the main loop's best block is diagonal, and the two
extension loops stretch a diagonal block to the full window. -/
theorem findLongestMatch_self (a : List Char) (lo hi : Nat) (hhi : hi ≤ a.length) :
    findLongestMatch a a lo hi lo hi = ⟨lo, lo, hi - lo⟩ := by
  by_cases hlh : hi ≤ lo
  · have hm : mainLoop a a lo hi lo hi = ⟨lo, lo, 0⟩ := by
      unfold mainLoop
      have h0 : hi - lo = 0 := by omega
      rw [h0]
      rfl
    unfold findLongestMatch
    rw [hm]
    dsimp only
    have hL : extendL a a lo lo lo lo 0 = (⟨lo, lo, 0⟩ : BestBlock) := by
      have h0 := extendL_diag a lo lo 0 (le_refl lo)
      simpa using h0
    rw [hL]
    dsimp only
    unfold extendR
    have h0 : hi - (lo + 0) = 0 := by omega
    rw [h0, extendRGo]
    have h1 : hi - lo = 0 := by omega
    rw [h1]
  · push_neg at hlh
    obtain ⟨hd1, hd2, hd3⟩ := mainLoop_diag a lo hi hhi (by omega)
    unfold findLongestMatch
    dsimp only
    have hL : extendL a a lo lo (mainLoop a a lo hi lo hi).i (mainLoop a a lo hi lo hi).j
        (mainLoop a a lo hi lo hi).size
        = ⟨lo, lo, (mainLoop a a lo hi lo hi).size + ((mainLoop a a lo hi lo hi).i - lo)⟩ := by
      rw [← hd1]
      exact extendL_diag a lo (mainLoop a a lo hi lo hi).i (mainLoop a a lo hi lo hi).size hd2
    rw [hL]
    dsimp only
    unfold extendR
    exact extendRGo_diag a hi lo _ _ rfl (by omega)

theorem matchSum_zero_range (a b : List Char) (x y : Nat) :
    matchSum a b x x y y = 0 := by
  unfold matchSum
  rw [Nat.sub_self, Nat.sub_self]
  rfl

/-- On equal ranges of `a` against itself, the total match size is the
whole range. -/
theorem matchSum_self (a : List Char) (lo hi : Nat) (hhi : hi ≤ a.length) :
    matchSum a a lo hi lo hi = hi - lo := by
  rw [matchSum_unfold]
  simp only [findLongestMatch_self a lo hi hhi]
  by_cases h : lo < hi
  · rw [if_pos ⟨by omega, le_refl lo, by omega, le_refl lo, by omega⟩]
    rw [matchSum_zero_range]
    have he : lo + (hi - lo) = hi := by omega
    rw [he, matchSum_zero_range]
    omega
  · rw [if_neg (by omega)]
    omega

/-- difflib's `ratio` of a string with itself is `1.0` — also in the
presence of the autojunk heuristic, because the two extension loops of
`find_longest_match` are free to run through "popular" characters. -/
theorem pyRatio_self (l : List Char) : pyRatio l l = 1 := by
  unfold pyRatio
  by_cases h : l.length + l.length = 0
  · rw [if_pos h]
  · rw [if_neg h]
    rw [matchSum_self l 0 l.length (le_refl _)]
    simp only [Nat.sub_zero]
    rw [Rat.mkRat_eq_div]
    have hl : (0 : ℚ) < (l.length : ℚ) + (l.length : ℚ) := by
      have : 0 < l.length := by omega
      exact_mod_cast Nat.add_pos_left this l.length
    rw [div_eq_one_iff_eq (by exact_mod_cast ne_of_gt hl)]
    push_cast
    ring

/-- Claim C3, counterexample: the similarity is not symmetric:
`get_similarity("tide", "diet")` is `0.25` while
`get_similarity("diet", "tide")` is `0.5` (difflib's first longest match
depends on the argument order). -/
theorem get_similarity_not_symmetric :
    ¬ ((TextProcessor.init (4/5)).get_similarity "tide".toList "diet".toList
        = (TextProcessor.init (4/5)).get_similarity "diet".toList "tide".toList) := by
  decide

/-- Claim C3, amended: the similarity is in `[0, 1]` and is `1.0` for
strings identical after case-folding — so a candidate differing from the
last accepted text only in letter case is rejected under the default
`0.8` threshold — but it is *not* symmetric in general
(`get_similarity_not_symmetric`). -/
theorem get_similarity_spec (p : TextProcessor) (a b : List Char) (now : Nat)
    (t : List Char) :
    0 ≤ p.get_similarity a b ∧ p.get_similarity a b ≤ 1
    ∧ (pyLower a = pyLower b → p.get_similarity a b = 1)
    ∧ (p.similarity_threshold = 4 / 5 → p.last_text ≠ [] →
        pyLower p.last_text = pyLower (pyStrip t) →
        p.add_text now t = (false, p)) := by
  refine ⟨pyRatio_nonneg _ _, pyRatio_le_one _ _, ?_, ?_⟩
  · intro h
    unfold TextProcessor.get_similarity
    rw [h, pyRatio_self]
  · intro hthr hlast hlow
    have hne : pyStrip t ≠ [] := by
      intro hc
      rw [hc] at hlow
      have hlen := congrArg List.length hlow
      simp only [pyLower, List.length_map, List.length_nil] at hlen
      exact hlast (List.length_eq_zero.mp hlen)
    have hd : p.is_duplicate (pyStrip t) = true := by
      unfold TextProcessor.is_duplicate
      rw [if_neg hlast, hlow, pyRatio_self, hthr, decide_eq_true_eq]
      norm_num
    exact add_text_of_dup p now t hne hd

theorem get_similarity_spec_witness :
    (TextProcessor.init (4/5)).get_similarity "Ab".toList "aB".toList = 1 :=
  (get_similarity_spec (TextProcessor.init (4/5)) "Ab".toList "aB".toList 0
      []).2.2.1 (by decide)

theorem add_text_spec_witness :
    ((TextProcessor.init (4/5)).add_text 0 "A".toList
        = (true, { TextProcessor.init (4/5) with
            entries := [(0, pyStrip "A".toList)], last_text := pyStrip "A".toList })
      ∧ ((TextProcessor.init (4/5)).add_text 0 "A".toList).2.entries.length = 1)
    ∧ (TextProcessor.mk (4/5) [(0, "Hello, world!".toList)]
          "Hello, world!".toList).add_text 1 "Hello, World!".toList
        = (false, TextProcessor.mk (4/5) [(0, "Hello, world!".toList)]
            "Hello, world!".toList) := by
  constructor
  · have h := (add_text_spec (TextProcessor.init (4/5)) 0 "A".toList).1 (by decide)
      (by
        have h0 : pyRatio (pyLower (TextProcessor.init (4/5)).last_text)
            (pyLower (pyStrip "A".toList)) = 0 :=
          pyRatio_nil_left _ (by decide)
        rw [h0]
        show (0 : ℚ) < 4/5
        norm_num)
    exact ⟨h.1, by simpa using h.2⟩
  · exact (add_text_spec (TextProcessor.mk (4/5) [(0, "Hello, world!".toList)]
        "Hello, world!".toList) 1 "Hello, World!".toList).2
      (show (0 : ℚ) < 4/5 by norm_num) (by decide)
      (by
        show (4/5 : ℚ) ≤ pyRatio (pyLower "Hello, world!".toList)
          (pyLower (pyStrip "Hello, World!".toList))
        rw [show pyLower (pyStrip "Hello, World!".toList)
            = pyLower "Hello, world!".toList from by decide]
        rw [pyRatio_self]
        norm_num)

set_option maxHeartbeats 1600000 in
/-- Reachable states keep `_last_text` equal to the text of the last
entry (and non-empty) whenever entries exist, and keep adjacent entries
dissimilar. -/
theorem reachable_inv (p : TextProcessor) (h : Reachable p) :
    (∀ hne : p.entries ≠ [], p.last_text = (p.entries.getLast hne).2 ∧ p.last_text ≠ [])
    ∧ adjacentOK p := by
  induction h with
  | init thr =>
    constructor
    · intro hne
      exact absurd rfl hne
    · exact List.chain'_nil
  | clear q hq ih =>
    constructor
    · intro hne
      exact absurd rfl hne
    · exact List.chain'_nil
  | save q fmt fs hq ih => exact ih
  | add q now t hq ih =>
    obtain ⟨ihl, ihc⟩ := ih
    by_cases h1 : pyStrip t = []
    · rw [add_text_of_empty q now t h1]
      exact ⟨ihl, ihc⟩
    · by_cases h2 : q.is_duplicate (pyStrip t) = true
      · rw [add_text_of_dup q now t h1 h2]
        exact ⟨ihl, ihc⟩
      · rw [Bool.not_eq_true] at h2
        rw [add_text_of_new q now t h1 h2]
        constructor
        · intro hne
          refine ⟨?_, h1⟩
          show pyStrip t = ((q.entries ++ [(now, pyStrip t)]).getLast hne).2
          have h4 := List.getLast?_eq_getLast_of_ne_nil hne
          rw [List.getLast?_concat] at h4
          have h5 := Option.some.inj h4
          rw [← h5]
        · unfold adjacentOK
          dsimp only
          rw [List.chain'_append]
          refine ⟨ihc, List.chain'_singleton _, ?_⟩
          intro x hx y hy
          simp only [List.head?_cons, Option.mem_def, Option.some.injEq] at hy
          have hne' : q.entries ≠ [] := by
            intro hc
            rw [hc] at hx
            simp at hx
          obtain ⟨hl1, hl2⟩ := ihl hne'
          have hxx : x = q.entries.getLast hne' := by
            rw [List.getLast?_eq_getLast_of_ne_nil hne'] at hx
            exact (by simpa using hx : q.entries.getLast hne' = x).symm
          have hsim : ¬ (q.similarity_threshold
              ≤ pyRatio (pyLower q.last_text) (pyLower (pyStrip t))) := by
            unfold TextProcessor.is_duplicate at h2
            rw [if_neg hl2] at h2
            simpa [decide_eq_false_iff_not] using h2
          rw [← hy, hxx, ← hl1]
          exact hsim

/-- Claim C2: in every reachable accumulator state — reachability covering
`add_text`, `clear` and `save` from a fresh processor — no two adjacent
accepted entries have similarity at or above the configured threshold
(the similarity computed as the code computes it: earlier entry first,
both case-folded). -/
theorem reachable_adjacentOK (p : TextProcessor) (h : Reachable p) : adjacentOK p :=
  (reachable_inv p h).2

theorem reachable_adjacentOK_witness :
    adjacentOK ((((TextProcessor.init (4/5)).add_text 0
        "Hello, world!".toList).2).add_text 1 "Completely new text.".toList).2 :=
  reachable_adjacentOK _
    (Reachable.add _ 1 _ (Reachable.add _ 0 _ (Reachable.init (4/5))))
